import Mathlib

/-!
Verification of the nonce-management and request-signing subsystem of the
go-yobit exchange client.

The development shallowly embeds the Go source:
* `signHmacSha512` embeds the signer (Go `signHmacSha512`, which calls the
  standard library HMAC with SHA-512); SHA-512 is modelled from FIPS 180-4,
  which is what `crypto/sha512` implements, with 64-bit words as `Nat`
  reduced modulo `2 ^ 64`.
* `getAndIncrementNonce`, `readNonce`, `writeNonce`,
  `createNonceFileIfNotExists`, `incrementNonce` embed the nonce store; the
  nonce file is modelled as an `Option String` together with readability and
  writability flags, and Go panics are modelled as `Except` errors.
* `callPrivate` embeds the authenticated-call builder, including Go
  `url.Values.Encode` (keys sorted, query escaping).
* `unmarshal` embeds the response deserializer with its `ErrorResponse`
  fallback; the `encoding/json` decode of the minimal success/error shape is
  modelled by an executable JSON parser.
-/

namespace Yobit

/-! ## 64-bit words as naturals modulo 2^64 -/

/-- Modulus of 64-bit machine arithmetic, `2 ^ 64`. -/
def w64 : Nat := 18446744073709551616

/-- Addition of 64-bit words. -/
def add64 (a b : Nat) : Nat := (a + b) % w64

/-- Right rotation of a 64-bit word by `n` bits. -/
def rotr64 (n x : Nat) : Nat := (x >>> n) ||| ((x <<< (64 - n)) % w64)

/-- Bitwise complement of a 64-bit word. -/
def not64 (x : Nat) : Nat := x ^^^ (w64 - 1)

/-! ## SHA-512 (FIPS 180-4, as implemented by Go `crypto/sha512`) -/

/-- Big sigma-0 round function of SHA-512. -/
def bsig0 (x : Nat) : Nat := rotr64 28 x ^^^ rotr64 34 x ^^^ rotr64 39 x

/-- Big sigma-1 round function of SHA-512. -/
def bsig1 (x : Nat) : Nat := rotr64 14 x ^^^ rotr64 18 x ^^^ rotr64 41 x

/-- Small sigma-0 message-schedule function of SHA-512. -/
def ssig0 (x : Nat) : Nat := rotr64 1 x ^^^ rotr64 8 x ^^^ (x >>> 7)

/-- Small sigma-1 message-schedule function of SHA-512. -/
def ssig1 (x : Nat) : Nat := rotr64 19 x ^^^ rotr64 61 x ^^^ (x >>> 6)

/-- Choice function of SHA-512. -/
def ch64 (x y z : Nat) : Nat := (x &&& y) ^^^ (not64 x &&& z)

/-- Majority function of SHA-512. -/
def maj64 (x y z : Nat) : Nat := (x &&& y) ^^^ (x &&& z) ^^^ (y &&& z)

/-- The eighty SHA-512 round constants. -/
def K512 : List Nat := [
  4794697086780616226, 8158064640168781261, 13096744586834688815, 16840607885511220156, 4131703408338449720,
  6480981068601479193, 10538285296894168987, 12329834152419229976, 15566598209576043074, 1334009975649890238,
  2608012711638119052, 6128411473006802146, 8268148722764581231, 9286055187155687089, 11230858885718282805,
  13951009754708518548, 16472876342353939154, 17275323862435702243, 1135362057144423861, 2597628984639134821,
  3308224258029322869, 5365058923640841347, 6679025012923562964, 8573033837759648693, 10970295158949994411,
  12119686244451234320, 12683024718118986047, 13788192230050041572, 14330467153632333762, 15395433587784984357,
  489312712824947311, 1452737877330783856, 2861767655752347644, 3322285676063803686, 5560940570517711597,
  5996557281743188959, 7280758554555802590, 8532644243296465576, 9350256976987008742, 10552545826968843579,
  11727347734174303076, 12113106623233404929, 14000437183269869457, 14369950271660146224, 15101387698204529176,
  15463397548674623760, 17586052441742319658, 1182934255886127544, 1847814050463011016, 2177327727835720531,
  2830643537854262169, 3796741975233480872, 4115178125766777443, 5681478168544905931, 6601373596472566643,
  7507060721942968483, 8399075790359081724, 8693463985226723168, 9568029438360202098, 10144078919501101548,
  10430055236837252648, 11840083180663258601, 13761210420658862357, 14299343276471374635, 14566680578165727644,
  15097957966210449927, 16922976911328602910, 17689382322260857208, 500013540394364858, 748580250866718886,
  1242879168328830382, 1977374033974150939, 2944078676154940804, 3659926193048069267, 4368137639120453308,
  4836135668995329356, 5532061633213252278, 6448918945643986474, 6902733635092675308, 7801388544844847127]

/-- The eight 64-bit chaining words of a SHA-512 computation. -/
structure Sha512State where
  a : Nat
  b : Nat
  c : Nat
  d : Nat
  e : Nat
  f : Nat
  g : Nat
  h : Nat
deriving DecidableEq

/-- Initial SHA-512 chaining value. -/
def sha512Init : Sha512State :=
  ⟨7640891576956012808, 13503953896175478587, 4354685564936845355,
   11912009170470909681, 5840696475078001361, 11170449401992604703,
   2270897969802886507, 6620516959819538809⟩

/-- Message-schedule extension: `ws` is the schedule so far in reverse order,
the numeral counts the remaining extension rounds. -/
def schedRev (ws : List Nat) : Nat → List Nat
  | 0 => ws
  | r + 1 =>
    schedRev (add64 (add64 (ssig1 (ws.getD 1 0)) (ws.getD 6 0))
                    (add64 (ssig0 (ws.getD 14 0)) (ws.getD 15 0)) :: ws) r

/-- One SHA-512 round: `kw` pairs the round constant with the schedule word. -/
def roundStep (st : Sha512State) (kw : Nat × Nat) : Sha512State :=
  let t1 := add64 st.h (add64 (bsig1 st.e) (add64 (ch64 st.e st.f st.g) (add64 kw.1 kw.2)))
  let t2 := add64 (bsig0 st.a) (maj64 st.a st.b st.c)
  ⟨add64 t1 t2, st.a, st.b, st.c, add64 st.d t1, st.e, st.f, st.g⟩

/-- Compression of one sixteen-word block into the chaining state. -/
def compressBlock (st : Sha512State) (block : List Nat) : Sha512State :=
  let ws := (schedRev block.reverse 64).reverse
  let r := (K512.zip ws).foldl roundStep st
  ⟨add64 st.a r.a, add64 st.b r.b, add64 st.c r.c, add64 st.d r.d,
   add64 st.e r.e, add64 st.f r.f, add64 st.g r.g, add64 st.h r.h⟩

/-- Big-endian interpretation of a byte list as one word. -/
def bytesToWord (bs : List Nat) : Nat := bs.foldl (fun acc b => acc * 256 + b) 0

/-- Split a 128-byte chunk into its sixteen big-endian 64-bit words. -/
def toWords16 (c : List Nat) : List Nat :=
  (List.range 16).map (fun i => bytesToWord ((c.drop (8 * i)).take 8))

/-- The sixteen-byte big-endian encoding of the message bit length. -/
def lenBytes (bits : Nat) : List Nat :=
  (List.range 16).map (fun j => (bits >>> (8 * (15 - j))) % 256)

/-- SHA-512 padding: append `0x80`, zero bytes and the 128-bit length. -/
def pad512 (msg : List Nat) : List Nat :=
  let l := msg.length
  let zeros := (128 - ((l + 17) % 128)) % 128
  msg ++ 0x80 :: (List.replicate zeros 0 ++ lenBytes (8 * l))

/-- Split a byte list into chunks of 128 bytes; the fuel argument is always
called with the length of the list, which suffices. -/
def chunks128 : Nat → List Nat → List (List Nat)
  | 0, _ => []
  | _, [] => []
  | fuel + 1, l => l.take 128 :: chunks128 fuel (l.drop 128)

/-- Big-endian bytes of one 64-bit word. -/
def wordBytes (w : Nat) : List Nat :=
  (List.range 8).map (fun j => (w >>> (8 * (7 - j))) % 256)

/-- The 64-byte SHA-512 digest of a byte list. -/
def sha512Bytes (msg : List Nat) : List Nat :=
  let padded := pad512 msg
  let fin := (chunks128 padded.length padded).foldl
    (fun s c => compressBlock s (toWords16 c)) sha512Init
  ([fin.a, fin.b, fin.c, fin.d, fin.e, fin.f, fin.g, fin.h].map wordBytes).flatten

/-! ## Hexadecimal and UTF-8 encoding -/

/-- Lowercase hexadecimal digit, as produced by Go `encoding/hex`. -/
def hexDigitChar (n : Nat) : Char :=
  if n < 10 then Char.ofNat (48 + n) else Char.ofNat (87 + n)

/-- Lowercase hexadecimal string of a byte list (Go `hex.EncodeToString`). -/
def hexEncode (bs : List Nat) : String :=
  ⟨(bs.map (fun b => [hexDigitChar (b / 16), hexDigitChar (b % 16)])).flatten⟩

/-- UTF-8 encoding of one Unicode scalar value. -/
def utf8Char (n : Nat) : List Nat :=
  if n < 0x80 then [n]
  else if n < 0x800 then [0xc0 ||| (n >>> 6), 0x80 ||| (n &&& 0x3f)]
  else if n < 0x10000 then
    [0xe0 ||| (n >>> 12), 0x80 ||| ((n >>> 6) &&& 0x3f), 0x80 ||| (n &&& 0x3f)]
  else
    [0xf0 ||| (n >>> 18), 0x80 ||| ((n >>> 12) &&& 0x3f),
     0x80 ||| ((n >>> 6) &&& 0x3f), 0x80 ||| (n &&& 0x3f)]

/-- UTF-8 bytes of a string, the Go `[]byte(s)` conversion. -/
def strBytes (s : String) : List Nat := (s.data.map (fun c => utf8Char c.toNat)).flatten

/-! ## The signer: Go `signHmacSha512` (crypto/hmac with sha512.New) -/

/-- HMAC-SHA512 digest bytes: the key is hashed when longer than the 128-byte
block, zero-padded to the block size, and combined with the inner and outer
pad constants exactly as in RFC 2104 / Go `crypto/hmac`. -/
def hmacSha512 (key msg : List Nat) : List Nat :=
  let k0 := if 128 < key.length then sha512Bytes key else key
  let kp := k0 ++ List.replicate (128 - k0.length) 0
  sha512Bytes ((kp.map (fun b => b ^^^ 0x5c)) ++
    sha512Bytes ((kp.map (fun b => b ^^^ 0x36)) ++ msg))

/-- Embedding of Go `signHmacSha512`: the lowercase hexadecimal HMAC-SHA512
digest of `message` keyed by `secret`. -/
def signHmacSha512 (secret message : List Nat) : String :=
  hexEncode (hmacSha512 secret message)

/-! ## The nonce store

The nonce file (`data/nonce`) is modelled as an optional string of contents
plus readability and writability flags; Go panics become `Except` errors.
The mutex in `GetAndIncrementNonce` serializes all calls, so the concurrent
behaviour coincides with sequential composition of whole calls, which is what
the embedding computes. A process restart does not change the durable state,
so restart is the identity on `NonceStorage`. -/

deriving instance DecidableEq for Except

/-- Durable state and accessibility of the nonce file. -/
structure NonceStorage where
  contents : Option String
  readable : Bool
  writable : Bool
deriving DecidableEq

/-- The ways a nonce-store operation can panic in the source. -/
inductive NonceFailure where
  | writeFailed
  | readFailed
  | corrupt
deriving DecidableEq

/-- Decimal value of a digit-character list, most significant first. -/
def decimalVal (cs : List Char) : Nat :=
  cs.foldl (fun acc c => acc * 10 + (c.toNat - 48)) 0

/-- Embedding of Go `strconv.ParseUint(s, 10, 64)`: succeeds exactly on a
nonempty all-digit string whose value fits in an unsigned 64-bit integer. -/
def parseUint64 (s : String) : Option Nat :=
  if s.data.isEmpty then none
  else if s.data.all Char.isDigit then
    if decimalVal s.data < w64 then some (decimalVal s.data) else none
  else none

/-- Little-endian decimal digit characters of `n`; the fuel is always called
with `n` itself, which bounds the number of divisions by ten. -/
def formatAux : Nat → Nat → List Char
  | 0, _ => []
  | fuel + 1, n => if n = 0 then [] else Char.ofNat (48 + n % 10) :: formatAux fuel (n / 10)

/-- Embedding of Go `strconv.FormatUint(n, 10)`: decimal representation. -/
def formatUint (n : Nat) : String :=
  if n = 0 then "0" else ⟨(formatAux n n).reverse⟩

/-- Embedding of Go `WriteNonce`: persists the data, or panics when the
storage is unwritable. -/
def writeNonce (fs : NonceStorage) (data : String) : Except NonceFailure NonceStorage :=
  if fs.writable then .ok { fs with contents := some data } else .error .writeFailed

/-- Embedding of Go `CreateNonceFileIfNotExists`: when the file is absent it
is created and `"1"` is written to it. -/
def createNonceFileIfNotExists (fs : NonceStorage) : Except NonceFailure NonceStorage :=
  match fs.contents with
  | none => writeNonce fs "1"
  | some _ => .ok fs

/-- Embedding of Go `readNonce`: ensures the file exists, reads it (panics
when unreadable) and parses the contents as a decimal unsigned 64-bit
integer (panics on a parse failure). -/
def readNonce (fs : NonceStorage) : Except NonceFailure (Nat × NonceStorage) :=
  match createNonceFileIfNotExists fs with
  | .error e => .error e
  | .ok fs1 =>
    if fs1.readable then
      match fs1.contents with
      | some s =>
        match parseUint64 s with
        | some n => .ok (n, fs1)
        | none => .error .corrupt
      | none => .error .readFailed
    else .error .readFailed

/-- Embedding of Go `incrementNonce`: increments the value in unsigned 64-bit
arithmetic (wrapping at `2 ^ 64`) and persists its decimal representation;
both the incremented value and the new storage are produced. -/
def incrementNonce (n : Nat) (fs : NonceStorage) : Except NonceFailure (Nat × NonceStorage) :=
  match writeNonce fs (formatUint ((n + 1) % w64)) with
  | .error e => .error e
  | .ok fs1 => .ok ((n + 1) % w64, fs1)

/-- Embedding of Go `GetAndIncrementNonce`: under the mutex, reads the stored
value, increments it, persists it, and returns the incremented value. -/
def getAndIncrementNonce (fs : NonceStorage) : Except NonceFailure (Nat × NonceStorage) :=
  match readNonce fs with
  | .error e => .error e
  | .ok (n, fs1) => incrementNonce n fs1

/-- Healthy storage holding the decimal representation of `v`. -/
def nonceStore (v : Nat) : NonceStorage := ⟨some (formatUint v), true, true⟩

/-- Sequential composition of `k` `GetAndIncrementNonce` calls, collecting the
returned nonces in call order. -/
def callsFrom : Nat → NonceStorage → Except NonceFailure (List Nat × NonceStorage)
  | 0, fs => .ok ([], fs)
  | k + 1, fs =>
    match getAndIncrementNonce fs with
    | .error e => .error e
    | .ok (n, fs1) =>
      match callsFrom k fs1 with
      | .error e => .error e
      | .ok (ns, fs2) => .ok (n :: ns, fs2)

/-- The nonces `v+1, v+2, …, v+k` that `k` healthy calls return. -/
def nonceList (v k : Nat) : List Nat := (List.range k).map (fun i => v + 1 + i)

/-- Truth of "this nonce-store operation panicked". -/
def isFailure {α : Type} : Except NonceFailure α → Bool
  | .error _ => true
  | .ok _ => false

/-! ## The authenticated-call builder: Go `callPrivate`

`url.Values` is a map from names to value lists; it is modelled as an
association list, which is faithful because `Encode` sorts the keys before
serializing. `Values.Add` appends to an existing key or inserts a new one;
`Encode` emits `name=value` components, query-escaped, for the keys in
sorted order, joined by `&`. -/

/-- Bytes Go `url.QueryEscape` leaves unescaped: alphanumerics, `-`, `.`,
`_`, `~`. -/
def isUnreservedByte (b : Nat) : Bool :=
  (48 ≤ b && b ≤ 57) || (65 ≤ b && b ≤ 90) || (97 ≤ b && b ≤ 122) ||
  b == 45 || b == 46 || b == 95 || b == 126

/-- Uppercase hexadecimal digit, as used in Go percent-encoding. -/
def hexUpperChar (n : Nat) : Char :=
  if n < 10 then Char.ofNat (48 + n) else Char.ofNat (55 + n)

/-- Embedding of Go `url.QueryEscape`: unreserved bytes are kept, space
becomes `+`, every other byte becomes `%XX` with uppercase hex digits. -/
def queryEscape (s : String) : String :=
  ⟨((strBytes s).map (fun b =>
      if isUnreservedByte b then [Char.ofNat b]
      else if b == 32 then [Char.ofNat 43]
      else [Char.ofNat 37, hexUpperChar (b / 16), hexUpperChar (b % 16)])).flatten⟩

/-- Embedding of Go `url.Values.Add`: append the value to an existing name,
or insert a fresh singleton binding. -/
def valuesAdd (vs : List (String × List String)) (k v : String) :
    List (String × List String) :=
  if vs.any (fun p => p.1 == k) then
    vs.map (fun p => if p.1 == k then (p.1, p.2 ++ [v]) else p)
  else vs ++ [(k, [v])]

/-- Map lookup of the value list bound to a name. -/
def lookupVals (vs : List (String × List String)) (k : String) : List String :=
  match vs.find? (fun p => p.1 == k) with
  | some p => p.2
  | none => []

/-- Lexicographic comparison of character lists by scalar value; on UTF-8
strings this coincides with the byte order Go `sort.Strings` uses. -/
def charListLe : List Char → List Char → Bool
  | [], _ => true
  | _ :: _, [] => false
  | a :: as, b :: bs =>
    if a.toNat < b.toNat then true
    else if b.toNat < a.toNat then false
    else charListLe as bs

/-- The string order of Go `sort.Strings` on the `Encode` keys. -/
def strLe (a b : String) : Prop := charListLe a.data b.data = true

instance : DecidableRel strLe :=
  fun a b => inferInstanceAs (Decidable (charListLe a.data b.data = true))

instance : IsTotal String strLe :=
  ⟨by
    have htot : ∀ as bs : List Char, charListLe as bs = true ∨ charListLe bs as = true := by
      intro as
      induction as with
      | nil => intro bs; left; rfl
      | cons a as ih =>
        intro bs
        cases bs with
        | nil => right; rfl
        | cons b bs =>
          by_cases h1 : a.toNat < b.toNat
          · left; simp [charListLe, h1]
          · by_cases h2 : b.toNat < a.toNat
            · right; simp [charListLe, h1, h2]
            · rcases ih bs with h | h
              · left; simp [charListLe, h1, h2, h]
              · right; simp [charListLe, h1, h2, h]
    intro a b
    exact htot a.data b.data⟩

instance : IsTrans String strLe :=
  ⟨by
    have htr : ∀ as bs cs : List Char, charListLe as bs = true →
        charListLe bs cs = true → charListLe as cs = true := by
      intro as
      induction as with
      | nil => intro bs cs _ _; rfl
      | cons a as ih =>
        intro bs cs h1 h2
        cases bs with
        | nil => simp [charListLe] at h1
        | cons b bs =>
          cases cs with
          | nil => simp [charListLe] at h2
          | cons c cs =>
            simp only [charListLe] at h1 h2 ⊢
            by_cases hab : a.toNat < b.toNat
            · by_cases hbc : b.toNat < c.toNat
              · have hac : a.toNat < c.toNat := by omega
                simp [hac]
              · by_cases hcb : c.toNat < b.toNat
                · simp [hbc, hcb] at h2
                · have hac : a.toNat < c.toNat := by omega
                  simp [hac]
            · by_cases hba : b.toNat < a.toNat
              · simp [hab, hba] at h1
              · rw [if_neg hab, if_neg hba] at h1
                by_cases hbc : b.toNat < c.toNat
                · have hac : a.toNat < c.toNat := by omega
                  simp [hac]
                · by_cases hcb : c.toNat < b.toNat
                  · simp [hbc, hcb] at h2
                  · rw [if_neg hbc, if_neg hcb] at h2
                    have hac : ¬ a.toNat < c.toNat := by omega
                    have hca : ¬ c.toNat < a.toNat := by omega
                    rw [if_neg hac, if_neg hca]
                    exact ih bs cs h1 h2
    intro a b c
    exact htr a.data b.data c.data⟩

/-- The `name=value` components of Go `url.Values.Encode`, keys in sorted
order. -/
def valuesEncodePairs (vs : List (String × List String)) : List String :=
  ((List.insertionSort strLe (vs.map Prod.fst)).map
    (fun k => (lookupVals vs k).map (fun v => queryEscape k ++ "=" ++ queryEscape v))).flatten

/-- Embedding of Go `url.Values.Encode`: the components joined by `&`. -/
def valuesEncode (vs : List (String × List String)) : String :=
  String.intercalate "&" (valuesEncodePairs vs)

/-- The API credential: public key identifier and signing secret. -/
structure ApiCredential where
  key : String
  secret : String
deriving DecidableEq

/-- The observable outcome of `callPrivate` before the network call: the
request body and the headers set on the POST request. -/
structure PrivateRequest where
  body : String
  contentType : String
  keyHeader : String
  signHeader : String
deriving DecidableEq

/-- Embedding of Go `callPrivate`: obtain the next nonce, build the form
with `method`, `nonce` and the supplied arguments, encode it, sign the
encoded body with HMAC-SHA512 under the credential secret, and attach the
body together with the `Key` and `Sign` headers. -/
def callPrivate (cred : ApiCredential) (method : String) (args : List (String × String))
    (fs : NonceStorage) : Except NonceFailure (PrivateRequest × NonceStorage) :=
  match getAndIncrementNonce fs with
  | .error e => .error e
  | .ok (nonce, fs1) =>
    let form := args.foldl (fun vs a => valuesAdd vs a.1 a.2)
      [("method", [method]), ("nonce", [formatUint nonce])]
    let encode := valuesEncode form
    .ok ({ body := encode,
           contentType := "application/x-www-form-urlencoded",
           keyHeader := cred.key,
           signHeader := signHmacSha512 (strBytes cred.secret) (strBytes encode) }, fs1)

/-- Name-ordered comparison of parameters, used to state canonical order. -/
def byName (p q : String × String) : Prop := strLe p.1 q.1

instance : DecidableRel byName := fun p q => inferInstanceAs (Decidable (strLe p.1 q.1))

/-- Parameters sorted by name (stable). -/
def sortByName (ps : List (String × String)) : List (String × String) :=
  List.insertionSort byName ps

/-- One query-escaped `name=value` component. -/
def escapedComponent (p : String × String) : String :=
  queryEscape p.1 ++ "=" ++ queryEscape p.2

/-- The full parameter list of a private call: the `method` parameter, the
`nonce` parameter, and the supplied arguments. -/
def privateParams (method : String) (n : Nat) (args : List (String × String)) :
    List (String × String) :=
  ("method", method) :: ("nonce", formatUint n) :: args

/-- Body shape as the specification describes it: all parameters including
`method` and `nonce`, URL-encoded, sorted by parameter name, joined by
`&`. -/
def canonicalBody (method : String) (n : Nat) (args : List (String × String)) : String :=
  String.intercalate "&" ((sortByName (privateParams method n args)).map escapedComponent)

/-! ## The response deserializer: Go `unmarshal`

The fallback decodes the minimal `{success, error}` shape with
`encoding/json`; the JSON grammar (objects, arrays, strings with escapes,
numbers, literals) is modelled by an executable recursive-descent parser.
Struct decoding follows `encoding/json` for the two fields: a missing field
keeps its zero value, `null` leaves a field untouched, a type mismatch or a
number that does not fit `uint8` fails the decode, a later duplicate key
overwrites an earlier one, and unknown keys are ignored. -/

/-- A parsed JSON value; numbers keep their literal spelling, as the Go
decoder does before converting to the target type. -/
inductive Jval where
  | jnull : Jval
  | jbool : Bool → Jval
  | jnum : String → Jval
  | jstr : String → Jval
  | jarr : List Jval → Jval
  | jobj : List (String × Jval) → Jval

/-- JSON insignificant whitespace. -/
def isJsonWs (c : Char) : Bool := c == ' ' || c == '\t' || c == '\n' || c == '\r'

/-- Drop leading JSON whitespace. -/
def skipWs : List Char → List Char
  | [] => []
  | c :: cs => if isJsonWs c then skipWs cs else c :: cs

/-- Value of one hexadecimal digit character. -/
def hexVal (c : Char) : Option Nat :=
  if 48 ≤ c.toNat && c.toNat ≤ 57 then some (c.toNat - 48)
  else if 97 ≤ c.toNat && c.toNat ≤ 102 then some (c.toNat - 87)
  else if 65 ≤ c.toNat && c.toNat ≤ 70 then some (c.toNat - 55)
  else none

/-- Four hexadecimal digits of a `\u` escape. -/
def parseHex4 (cs : List Char) : Option (Nat × List Char) :=
  match cs with
  | a :: b :: c :: d :: rest =>
    match hexVal a, hexVal b, hexVal c, hexVal d with
    | some x, some y, some z, some w => some (((x * 16 + y) * 16 + z) * 16 + w, rest)
    | _, _, _, _ => none
  | _ => none

/-- Character of a `\u` escape; surrogate halves and out-of-range values
become the Unicode replacement character, as in the Go decoder. -/
def uCharOf (n : Nat) : Char :=
  if n < 0xD800 then Char.ofNat n
  else if n < 0xE000 then Char.ofNat 0xFFFD
  else if n < 0x110000 then Char.ofNat n
  else Char.ofNat 0xFFFD

/-- Body of a JSON string after the opening quote, handling escapes; the
fuel is called with the input length, which suffices because every step
consumes input. -/
def parseStrBody : Nat → List Char → List Char → Option (String × List Char)
  | 0, _, _ => none
  | fuel + 1, cs, acc =>
    match cs with
    | [] => none
    | c :: rest =>
      if c == '\"' then some (⟨acc.reverse⟩, rest)
      else if c == '\\' then
        match rest with
        | [] => none
        | e :: rest2 =>
          if e == '\"' then parseStrBody fuel rest2 ('\"' :: acc)
          else if e == '\\' then parseStrBody fuel rest2 ('\\' :: acc)
          else if e == '/' then parseStrBody fuel rest2 ('/' :: acc)
          else if e == 'b' then parseStrBody fuel rest2 (Char.ofNat 8 :: acc)
          else if e == 'f' then parseStrBody fuel rest2 (Char.ofNat 12 :: acc)
          else if e == 'n' then parseStrBody fuel rest2 (Char.ofNat 10 :: acc)
          else if e == 'r' then parseStrBody fuel rest2 (Char.ofNat 13 :: acc)
          else if e == 't' then parseStrBody fuel rest2 (Char.ofNat 9 :: acc)
          else if e == 'u' then
            match parseHex4 rest2 with
            | some (n, rest3) => parseStrBody fuel rest3 (uCharOf n :: acc)
            | none => none
          else none
      else if c.toNat < 32 then none
      else parseStrBody fuel rest (c :: acc)

/-- Longest prefix of decimal digits. -/
def digitSpan (cs : List Char) : List Char × List Char := cs.span Char.isDigit

/-- Optional fraction part of a JSON number. -/
def parseFrac (cs : List Char) : Option (List Char × List Char) :=
  match cs with
  | p :: rest =>
    if p == '.' then
      let (fd, r) := digitSpan rest
      if fd.isEmpty then none else some ('.' :: fd, r)
    else some ([], cs)
  | [] => some ([], cs)

/-- Optional exponent part of a JSON number. -/
def parseExp (cs : List Char) : Option (List Char × List Char) :=
  match cs with
  | p :: rest =>
    if p == 'e' || p == 'E' then
      match rest with
      | s :: rest2 =>
        if s == '+' || s == '-' then
          let (ed, r) := digitSpan rest2
          if ed.isEmpty then none else some (p :: s :: ed, r)
        else
          let (ed, r) := digitSpan rest
          if ed.isEmpty then none else some (p :: ed, r)
      | [] => none
    else some ([], cs)
  | [] => some ([], cs)

/-- A JSON number literal (sign, integer part without redundant leading
zero, fraction, exponent), kept as its spelling. -/
def parseNum (cs : List Char) : Option (String × List Char) :=
  let sr : List Char × List Char :=
    match cs with
    | c :: rest => if c == '-' then (['-'], rest) else ([], cs)
    | [] => ([], cs)
  let (intDigits, cs2) := digitSpan sr.2
  if intDigits.isEmpty then none
  else if 1 < intDigits.length && intDigits.headD 'x' == '0' then none
  else
    match parseFrac cs2 with
    | none => none
    | some (fr, cs3) =>
      match parseExp cs3 with
      | none => none
      | some (ex, cs4) => some (⟨sr.1 ++ intDigits ++ fr ++ ex⟩, cs4)

/-- Match a literal keyword tail such as `rue` of `true`. -/
def stripLit : List Char → List Char → Option (List Char)
  | [], cs => some cs
  | l :: ls, c :: cs => if c == l then stripLit ls cs else none
  | _ :: _, [] => none

/-- Members of a JSON object after the first has been reached; `pv` parses
one value. The fuel is bounded by the input length: every member consumes
input. -/
def parseMembersAux (pv : List Char → Option (Jval × List Char)) :
    Nat → List Char → List (String × Jval) → Option (List (String × Jval) × List Char)
  | 0, _, _ => none
  | fuel + 1, cs, acc =>
    match skipWs cs with
    | q :: rest =>
      if q == '\"' then
        match parseStrBody (rest.length + 1) rest [] with
        | some (k, cs1) =>
          match skipWs cs1 with
          | colon :: cs2 =>
            if colon == ':' then
              match pv cs2 with
              | some (v, cs3) =>
                match skipWs cs3 with
                | sep :: cs4 =>
                  if sep == ',' then parseMembersAux pv fuel cs4 ((k, v) :: acc)
                  else if sep == Char.ofNat 125 then some (((k, v) :: acc).reverse, cs4)
                  else none
                | [] => none
              | none => none
            else none
          | [] => none
        | none => none
      else none
    | [] => none

/-- Elements of a JSON array after the first has been reached. -/
def parseElemsAux (pv : List Char → Option (Jval × List Char)) :
    Nat → List Char → List Jval → Option (List Jval × List Char)
  | 0, _, _ => none
  | fuel + 1, cs, acc =>
    match pv cs with
    | some (v, cs1) =>
      match skipWs cs1 with
      | sep :: cs2 =>
        if sep == ',' then parseElemsAux pv fuel cs2 (v :: acc)
        else if sep == ']' then some ((v :: acc).reverse, cs2)
        else none
      | [] => none
    | none => none

/-- One JSON value; fuel decreases at each nesting level and is called with
the input length plus one, which suffices. -/
def parseVal : Nat → List Char → Option (Jval × List Char)
  | 0, _ => none
  | fuel + 1, cs =>
    match skipWs cs with
    | [] => none
    | c :: rest =>
      if c == Char.ofNat 123 then
        match skipWs rest with
        | r :: rest2 =>
          if r == Char.ofNat 125 then some (Jval.jobj [], rest2)
          else
            match parseMembersAux (parseVal fuel) fuel (r :: rest2) [] with
            | some (fields, cs1) => some (Jval.jobj fields, cs1)
            | none => none
        | [] => none
      else if c == '[' then
        match skipWs rest with
        | r :: rest2 =>
          if r == ']' then some (Jval.jarr [], rest2)
          else
            match parseElemsAux (parseVal fuel) fuel (r :: rest2) [] with
            | some (elems, cs1) => some (Jval.jarr elems, cs1)
            | none => none
        | [] => none
      else if c == '\"' then
        match parseStrBody (rest.length + 1) rest [] with
        | some (s, cs1) => some (Jval.jstr s, cs1)
        | none => none
      else if c == 't' then
        (stripLit ['r', 'u', 'e'] rest).map (fun cs1 => (Jval.jbool true, cs1))
      else if c == 'f' then
        (stripLit ['a', 'l', 's', 'e'] rest).map (fun cs1 => (Jval.jbool false, cs1))
      else if c == 'n' then
        (stripLit ['u', 'l', 'l'] rest).map (fun cs1 => (Jval.jnull, cs1))
      else
        (parseNum (c :: rest)).map (fun p => (Jval.jnum p.1, p.2))

/-- Whole-input JSON parse: one value, possibly surrounded by whitespace,
with nothing after it (Go rejects trailing data). -/
def parseJson (s : String) : Option Jval :=
  match parseVal (s.data.length + 1) s.data with
  | some (v, rest) => if (skipWs rest).isEmpty then some v else none
  | none => none

/-- Embedding of the Go `ErrorResponse` struct: a `success` flag decoded
into an unsigned 8-bit integer, and a server-supplied `error` message. -/
structure ErrorResponse where
  success : Nat
  error : String
deriving DecidableEq

/-- Decode a JSON value into a `uint8` field, Go style: an integer literal
that `ParseUint` accepts and that fits 8 bits; `null` keeps the current
value; anything else fails. -/
def decodeUint8Field (v : Jval) (cur : Nat) : Option Nat :=
  match v with
  | .jnum lit =>
    match parseUint64 lit with
    | some n => if n ≤ 255 then some n else none
    | none => none
  | .jnull => some cur
  | _ => none

/-- Decode a JSON value into a string field, Go style. -/
def decodeStrField (v : Jval) (cur : String) : Option String :=
  match v with
  | .jstr s => some s
  | .jnull => some cur
  | _ => none

/-- Fold one object member into the partially decoded `ErrorResponse`. -/
def applyErrorField (acc : Option ErrorResponse) (kv : String × Jval) : Option ErrorResponse :=
  match acc with
  | none => none
  | some er =>
    if kv.1 == "success" then
      (decodeUint8Field kv.2 er.success).map (fun n => { er with success := n })
    else if kv.1 == "error" then
      (decodeStrField kv.2 er.error).map (fun s => { er with error := s })
    else some er

/-- Decode of `data` into `ErrorResponse`: the top-level value must be an
object; fields start at their zero values. -/
def decodeErrorResponse (data : String) : Option ErrorResponse :=
  match parseJson data with
  | some (Jval.jobj fields) => fields.foldl applyErrorField (some ⟨0, ""⟩)
  | _ => none

/-- Embedding of Go `unmarshal`: try the primary schema decode; on failure,
wrap the message, then fall back to the `ErrorResponse` shape and, when that
parses, surface exactly the server-supplied error string. -/
def unmarshal {α : Type} (primaryDecode : String → Except String α) (data : String) :
    Except String α :=
  match primaryDecode data with
  | .ok v => .ok v
  | .error e =>
    match decodeErrorResponse data with
    | some er => .error er.error
    | none => .error ("unmarshaling failed. " ++ data ++ " " ++ e)

/-! ## Observation helpers for stating properties -/

/-- The nonce a `GetAndIncrementNonce` call returned, when it did not panic. -/
def returnedNonce (r : Except NonceFailure (Nat × NonceStorage)) : Option Nat :=
  match r with
  | .ok p => some p.1
  | .error _ => none

/-- The nonces a call sequence returned, when no call panicked. -/
def returnedList (r : Except NonceFailure (List Nat × NonceStorage)) : Option (List Nat) :=
  match r with
  | .ok p => some p.1
  | .error _ => none

/-- The `Sign` header a `callPrivate` call produced, when it did not panic. -/
def requestSign (r : Except NonceFailure (PrivateRequest × NonceStorage)) : Option String :=
  match r with
  | .ok p => some p.1.signHeader
  | .error _ => none

/-- The body a `callPrivate` call produced, when it did not panic. -/
def requestBody (r : Except NonceFailure (PrivateRequest × NonceStorage)) : Option String :=
  match r with
  | .ok p => some p.1.body
  | .error _ => none

/-- Lowercase hexadecimal digit characters. -/
def isLowerHex (c : Char) : Bool := c.isDigit || (97 ≤ c.toNat && c.toNat ≤ 102)

/-! ## Decimal formatting and parsing lemmas -/

theorem digitChar_isDigit (d : Nat) (hd : d < 10) : (Char.ofNat (48 + d)).isDigit = true := by
  interval_cases d <;> decide

theorem digitChar_toNat (d : Nat) (hd : d < 10) : (Char.ofNat (48 + d)).toNat = 48 + d := by
  interval_cases d <;> decide

theorem formatAux_spec (fuel : Nat) : ∀ n, n ≤ fuel →
    (∀ c ∈ formatAux fuel n, ∃ d, d < 10 ∧ c = Char.ofNat (48 + d)) ∧
    decimalVal (formatAux fuel n).reverse = n := by
  induction fuel with
  | zero =>
    intro n hn
    interval_cases n
    simp [formatAux, decimalVal]
  | succ f ih =>
    intro n hn
    by_cases h0 : n = 0
    · subst h0; simp [formatAux, decimalVal]
    · have hmod : n % 10 < 10 := Nat.mod_lt _ (by norm_num)
      have hdiv : n / 10 ≤ f := by
        have := Nat.div_lt_self (Nat.pos_of_ne_zero h0) (by norm_num : 1 < 10)
        omega
      obtain ⟨ihd, ihv⟩ := ih (n / 10) hdiv
      constructor
      · intro c hc
        simp only [formatAux, h0, if_false, List.mem_cons] at hc
        rcases hc with rfl | hc
        · exact ⟨n % 10, hmod, rfl⟩
        · exact ihd c hc
      · simp only [formatAux, h0, if_false, List.reverse_cons]
        unfold decimalVal
        rw [List.foldl_append]
        have : decimalVal (formatAux f (n / 10)).reverse = n / 10 := ihv
        unfold decimalVal at this
        rw [this]
        simp only [List.foldl_cons, List.foldl_nil]
        rw [digitChar_toNat _ hmod]
        omega

theorem formatAux_ne_nil (fuel n : Nat) (hpos : 0 < n) (hn : n ≤ fuel) :
    formatAux fuel n ≠ [] := by
  cases fuel with
  | zero => omega
  | succ f =>
    have h0 : n ≠ 0 := by omega
    simp [formatAux, h0]

theorem parseUint64_formatUint (v : Nat) (hv : v < w64) :
    parseUint64 (formatUint v) = some v := by
  by_cases h0 : v = 0
  · subst h0; decide
  · obtain ⟨hdig, hval⟩ := formatAux_spec v v le_rfl
    have hne : formatAux v v ≠ [] := formatAux_ne_nil v v (by omega) le_rfl
    have hdata : (formatUint v).data = (formatAux v v).reverse := by
      simp [formatUint, h0]
    have hval' : decimalVal (formatUint v).data = v := by rw [hdata, hval]
    unfold parseUint64
    rw [hdata]
    have hnonempty : ((formatAux v v).reverse.isEmpty) = false := by
      simp [List.isEmpty_iff, hne]
    rw [hnonempty]
    have hall : ((formatAux v v).reverse.all Char.isDigit) = true := by
      simp only [List.all_eq_true, List.mem_reverse]
      intro c hc
      obtain ⟨d, hd, rfl⟩ := hdig c hc
      exact digitChar_isDigit d hd
    simp only [Bool.false_eq_true, if_false, hall, if_true]
    rw [hdata] at hval'
    rw [hval']
    simp [hv]

/-! ## Nonce-store characterization lemmas -/

theorem getAndIncrementNonce_store (v : Nat) (hv : v < w64) :
    getAndIncrementNonce (nonceStore v) =
      .ok ((v + 1) % w64, nonceStore ((v + 1) % w64)) := by
  simp [getAndIncrementNonce, readNonce, createNonceFileIfNotExists, nonceStore,
        parseUint64_formatUint v hv, incrementNonce, writeNonce]

theorem getAndIncrementNonce_store_lt (v : Nat) (hv : v + 1 < w64) :
    getAndIncrementNonce (nonceStore v) = .ok (v + 1, nonceStore (v + 1)) := by
  rw [getAndIncrementNonce_store v (by omega), Nat.mod_eq_of_lt hv]

theorem nonceList_succ (v k : Nat) :
    nonceList v (k + 1) = (v + 1) :: nonceList (v + 1) k := by
  rw [nonceList, nonceList, List.range_succ_eq_map, List.map_cons, List.map_map]
  congr 1
  apply List.map_congr_left
  intro i _
  simp only [Function.comp_apply]
  omega

theorem callsFrom_store (k : Nat) : ∀ v, v + k < w64 →
    callsFrom k (nonceStore v) = .ok (nonceList v k, nonceStore (v + k)) := by
  induction k with
  | zero => intro v hv; simp [callsFrom, nonceList]
  | succ n ih =>
    intro v hv
    have hg := getAndIncrementNonce_store_lt v (by omega)
    have hrest := ih (v + 1) (by omega)
    simp only [callsFrom, hg, hrest, nonceList_succ]
    have : v + 1 + n = v + (n + 1) := by omega
    rw [this]

theorem nonceList_pairwise (v k : Nat) : List.Pairwise (· < ·) (nonceList v k) := by
  unfold nonceList
  exact (List.pairwise_lt_range k).map _ (by intro a b h; omega)

theorem nonceList_nodup (v k : Nat) : (nonceList v k).Nodup :=
  (nonceList_pairwise v k).imp (fun h => Nat.ne_of_lt h)

theorem nonceList_getD (v k i : Nat) (hi : i < k) :
    (nonceList v k).getD i 0 = v + 1 + i := by
  unfold nonceList
  rw [List.getD_eq_getElem?_getD, List.getElem?_map, List.getElem?_range hi]
  rfl

theorem nonceList_mem (v k a : Nat) (ha : a ∈ nonceList v k) :
    v + 1 ≤ a ∧ a ≤ v + k := by
  unfold nonceList at ha
  simp only [List.mem_map, List.mem_range] at ha
  obtain ⟨i, hi, rfl⟩ := ha
  omega

/-! ## Form-encoding lemmas -/

theorem flatten_singleton_map {α β : Type} (f : α → β) (l : List α) :
    (l.map (fun x => [f x])).flatten = l.map f := by
  induction l with
  | nil => rfl
  | cons a t ih => simp [ih]

theorem foldl_valuesAdd_fresh : ∀ (args : List (String × String))
    (acc : List (String × List String)),
    (∀ a ∈ args, ∀ p ∈ acc, p.1 ≠ a.1) → (args.map Prod.fst).Nodup →
    args.foldl (fun vs a => valuesAdd vs a.1 a.2) acc =
      acc ++ args.map (fun a => (a.1, [a.2])) := by
  intro args
  induction args with
  | nil => intro acc _ _; simp
  | cons a rest ih =>
    intro acc hfresh hnodup
    have hnot : acc.any (fun p => p.1 == a.1) = false := by
      rw [List.any_eq_false]
      intro p hp
      have := hfresh a (List.mem_cons_self a rest) p hp
      simpa using this
    have hstep : valuesAdd acc a.1 a.2 = acc ++ [(a.1, [a.2])] := by
      simp [valuesAdd, hnot]
    have hnodup' := hnodup
    rw [List.map_cons] at hnodup'
    have hcons := List.nodup_cons.mp hnodup'
    have hanodup : a.1 ∉ rest.map Prod.fst := hcons.1
    simp only [List.foldl_cons, hstep]
    rw [ih (acc ++ [(a.1, [a.2])]) ?_ ?_]
    · simp
    · intro b hb p hp
      rcases List.mem_append.mp hp with hp | hp
      · exact hfresh b (List.mem_cons_of_mem a hb) p hp
      · have hpa : p = (a.1, [a.2]) := by simpa using hp
        subst hpa
        intro hc
        have hc1 : a.1 = b.1 := hc
        exact hanodup (hc1 ▸ List.mem_map_of_mem Prod.fst hb)
    · exact hcons.2

theorem map_fst_orderedInsert (p : String × String) (l : List (String × String)) :
    (List.orderedInsert byName p l).map Prod.fst =
      List.orderedInsert strLe p.1 (l.map Prod.fst) := by
  induction l with
  | nil => rfl
  | cons b t ih =>
    by_cases h : strLe p.1 b.1
    · have hb : byName p b := h
      rw [List.map_cons, List.orderedInsert, if_pos hb, List.orderedInsert, if_pos h]
      simp
    · have hb : ¬ byName p b := h
      rw [List.map_cons, List.orderedInsert, if_neg hb, List.orderedInsert, if_neg h]
      simp [ih]

theorem map_fst_insertionSort (l : List (String × String)) :
    (List.insertionSort byName l).map Prod.fst =
      List.insertionSort strLe (l.map Prod.fst) := by
  induction l with
  | nil => rfl
  | cons a t ih =>
    rw [List.map_cons, List.insertionSort, List.insertionSort, ← ih,
        map_fst_orderedInsert]

theorem find?_key_nodup : ∀ (vs : List (String × List String)),
    (vs.map Prod.fst).Nodup → ∀ p ∈ vs, vs.find? (fun q => q.1 == p.1) = some p := by
  intro vs
  induction vs with
  | nil => intro _ p hp; cases hp
  | cons a t ih =>
    intro hnodup p hp
    rcases List.mem_cons.mp hp with rfl | hp
    · rw [List.find?_cons_of_pos]
      simp
    · have h1 : a.1 ∉ t.map Prod.fst := (List.nodup_cons.mp (by simpa using hnodup)).1
      have hne : a.1 ≠ p.1 := by
        intro hc
        exact h1 (hc ▸ List.mem_map_of_mem Prod.fst hp)
      rw [List.find?_cons_of_neg]
      · exact ih (List.nodup_cons.mp (by simpa using hnodup)).2 p hp
      · simp [hne]

theorem valuesEncodePairs_singletons (pairs : List (String × String))
    (h : (pairs.map Prod.fst).Nodup) :
    valuesEncodePairs (pairs.map (fun p => (p.1, [p.2]))) =
      (sortByName pairs).map escapedComponent := by
  have hfst : (pairs.map (fun p => (p.1, [p.2]))).map Prod.fst = pairs.map Prod.fst := by
    simp [List.map_map, Function.comp]
  have hnodvs : ((pairs.map (fun p => (p.1, [p.2]))).map Prod.fst).Nodup := by
    rw [hfst]; exact h
  have hmem : ∀ p ∈ sortByName pairs,
      lookupVals (pairs.map (fun p => (p.1, [p.2]))) p.1 = [p.2] := by
    intro p hpmem
    have hp : p ∈ pairs := (List.perm_insertionSort byName pairs).subset hpmem
    have hmem_vs : (p.1, [p.2]) ∈ pairs.map (fun p => (p.1, [p.2])) :=
      List.mem_map_of_mem _ hp
    have hfind := find?_key_nodup _ hnodvs (p.1, [p.2]) hmem_vs
    unfold lookupVals
    rw [hfind]
  unfold valuesEncodePairs
  rw [hfst, ← map_fst_insertionSort, List.map_map]
  have hcongr : (List.insertionSort byName pairs).map
      ((fun k => (lookupVals (pairs.map (fun p => (p.1, [p.2]))) k).map
        (fun v => queryEscape k ++ "=" ++ queryEscape v)) ∘ Prod.fst) =
      (List.insertionSort byName pairs).map (fun p => [escapedComponent p]) := by
    apply List.map_congr_left
    intro p hp
    simp only [Function.comp_apply]
    rw [hmem p hp]
    simp [escapedComponent]
  rw [hcongr, flatten_singleton_map]
  rfl

theorem callPrivate_store (cred : ApiCredential) (method : String)
    (args : List (String × String)) (v : Nat) (hv : v + 1 < w64)
    (h1 : (args.map Prod.fst).Nodup)
    (h2 : "method" ∉ args.map Prod.fst) (h3 : "nonce" ∉ args.map Prod.fst) :
    callPrivate cred method args (nonceStore v) =
      .ok ({ body := canonicalBody method (v + 1) args,
             contentType := "application/x-www-form-urlencoded",
             keyHeader := cred.key,
             signHeader := signHmacSha512 (strBytes cred.secret)
               (strBytes (canonicalBody method (v + 1) args)) },
           nonceStore (v + 1)) := by
  have hg := getAndIncrementNonce_store_lt v hv
  have hparams : ((privateParams method (v + 1) args).map Prod.fst).Nodup := by
    simp only [privateParams, List.map_cons, List.nodup_cons]
    refine ⟨?_, h3, h1⟩
    simp only [List.mem_cons]
    rintro (hc | hc)
    · exact absurd hc (by decide)
    · exact h2 hc
  have hform : args.foldl (fun vs a => valuesAdd vs a.1 a.2)
      [("method", [method]), ("nonce", [formatUint (v + 1)])] =
      (privateParams method (v + 1) args).map (fun p => (p.1, [p.2])) := by
    rw [foldl_valuesAdd_fresh args _ ?_ h1]
    · simp [privateParams]
    · intro a ha p hp
      have : p = ("method", [method]) ∨ p = ("nonce", [formatUint (v + 1)]) := by
        simpa using hp
      rcases this with rfl | rfl
      · intro hc
        have hc1 : ("method" : String) = a.1 := hc
        exact h2 (hc1 ▸ List.mem_map_of_mem Prod.fst ha)
      · intro hc
        have hc1 : ("nonce" : String) = a.1 := hc
        exact h3 (hc1 ▸ List.mem_map_of_mem Prod.fst ha)
  have hbody : valuesEncode ((privateParams method (v + 1) args).map (fun p => (p.1, [p.2]))) =
      canonicalBody method (v + 1) args := by
    unfold valuesEncode canonicalBody
    rw [valuesEncodePairs_singletons _ hparams]
  simp only [callPrivate, hg, hform, hbody]

/-! ## Digest-shape lemmas -/

theorem parseUint64_lt (s : String) (n : Nat) (h : parseUint64 s = some n) : n < w64 := by
  unfold parseUint64 at h
  split_ifs at h with h1 h2 h3
  all_goals simp_all

theorem sha512Bytes_length (msg : List Nat) : (sha512Bytes msg).length = 64 := by
  unfold sha512Bytes wordBytes
  simp

theorem sha512Bytes_lt (msg : List Nat) : ∀ b ∈ sha512Bytes msg, b < 256 := by
  intro b hb
  unfold sha512Bytes at hb
  simp only [List.mem_flatten, List.mem_map] at hb
  obtain ⟨l, ⟨w, _, rfl⟩, hbl⟩ := hb
  unfold wordBytes at hbl
  simp only [List.mem_map, List.mem_range] at hbl
  obtain ⟨j, _, rfl⟩ := hbl
  exact Nat.mod_lt _ (by norm_num)

theorem hmacSha512_length (key msg : List Nat) : (hmacSha512 key msg).length = 64 := by
  unfold hmacSha512
  exact sha512Bytes_length _

theorem hmacSha512_lt (key msg : List Nat) : ∀ b ∈ hmacSha512 key msg, b < 256 := by
  unfold hmacSha512
  exact sha512Bytes_lt _

theorem hexEncode_data (bs : List Nat) :
    (hexEncode bs).data = (bs.map (fun b => [hexDigitChar (b / 16), hexDigitChar (b % 16)])).flatten :=
  rfl

theorem flatten_pair_map_length {α : Type} (f g : Nat → α) (bs : List Nat) :
    ((bs.map (fun b => [f b, g b])).flatten).length = 2 * bs.length := by
  induction bs with
  | nil => rfl
  | cons b t ih =>
    simp only [List.map_cons, List.flatten_cons, List.length_append, ih,
               List.length_cons, List.length_nil]
    omega

theorem hexEncode_length (bs : List Nat) : (hexEncode bs).length = 2 * bs.length := by
  show (hexEncode bs).data.length = 2 * bs.length
  rw [hexEncode_data]
  exact flatten_pair_map_length _ _ bs

theorem hexDigitChar_lowerHex (n : Nat) (h : n < 16) : isLowerHex (hexDigitChar n) = true := by
  interval_cases n <;> decide

theorem signHmacSha512_length (secret message : List Nat) :
    (signHmacSha512 secret message).length = 128 := by
  unfold signHmacSha512
  rw [hexEncode_length, hmacSha512_length]

theorem signHmacSha512_lowerHex (secret message : List Nat) :
    (signHmacSha512 secret message).data.all isLowerHex = true := by
  unfold signHmacSha512
  rw [List.all_eq_true]
  intro c hc
  rw [hexEncode_data] at hc
  simp only [List.mem_flatten, List.mem_map] at hc
  obtain ⟨l, ⟨b, hb, rfl⟩, hcl⟩ := hc
  have hblt : b < 256 := hmacSha512_lt secret message b hb
  simp only [List.mem_cons, List.not_mem_nil, or_false] at hcl
  rcases hcl with rfl | rfl
  · exact hexDigitChar_lowerHex _ (by omega)
  · exact hexDigitChar_lowerHex _ (Nat.mod_lt _ (by norm_num))

/-! ## Query-escape identity on decimal strings -/

theorem utf8Char_digit (d : Nat) (hd : d < 10) :
    utf8Char ((Char.ofNat (48 + d)).toNat) = [48 + d] := by
  interval_cases d <;> decide

theorem isUnreservedByte_digit (d : Nat) (hd : d < 10) :
    isUnreservedByte (48 + d) = true := by
  interval_cases d <;> decide

theorem queryEscape_digits (cs : List Char)
    (h : ∀ c ∈ cs, ∃ d, d < 10 ∧ c = Char.ofNat (48 + d)) :
    queryEscape ⟨cs⟩ = ⟨cs⟩ := by
  unfold queryEscape strBytes
  have h1 : (String.mk cs).data = cs := rfl
  rw [h1]
  have h2 : cs.map (fun c => utf8Char c.toNat) = cs.map (fun c => [c.toNat]) := by
    apply List.map_congr_left
    intro c hc
    obtain ⟨d, hd, rfl⟩ := h c hc
    rw [utf8Char_digit d hd, digitChar_toNat d hd]
  rw [h2, flatten_singleton_map]
  have h3 : cs.map Char.toNat = cs.map (fun c => c.toNat) := rfl
  rw [h3, List.map_map]
  have h4 : cs.map ((fun b => if isUnreservedByte b = true then [Char.ofNat b]
      else if b == 32 then [Char.ofNat 43]
      else [Char.ofNat 37, hexUpperChar (b / 16), hexUpperChar (b % 16)]) ∘ (fun c => c.toNat)) =
      cs.map (fun c => [c]) := by
    apply List.map_congr_left
    intro c hc
    obtain ⟨d, hd, rfl⟩ := h c hc
    simp only [Function.comp_apply]
    rw [digitChar_toNat d hd, if_pos (isUnreservedByte_digit d hd)]
  rw [h4, flatten_singleton_map]
  simp

theorem queryEscape_formatUint (n : Nat) : queryEscape (formatUint n) = formatUint n := by
  by_cases h0 : n = 0
  · subst h0; decide
  · obtain ⟨hdig, _⟩ := formatAux_spec n n le_rfl
    have : formatUint n = ⟨(formatAux n n).reverse⟩ := by simp [formatUint, h0]
    rw [this]
    apply queryEscape_digits
    intro c hc
    exact hdig c (List.mem_reverse.mp hc)

/-! ## Claim theorems -/

set_option maxRecDepth 10000 in
/-- C1, counterexample: with storage absent at startup, the first
`GetAndIncrementNonce` call returns `2`, not `1` as the claim states — the
store initializes the file to `"1"` and then returns the incremented
value. -/
theorem c1_counterexample :
    returnedNonce (getAndIncrementNonce ⟨none, true, true⟩) = some 2 ∧
    (some 2 : Option Nat) ≠ some 1 := by
  constructor
  · decide
  · decide

/-- C1, amended: a single `GetAndIncrementNonce` call on a healthy store
holding `v` persists `v + 1` and returns that same incremented value `v + 1`
(not the previously stored `v`); with storage absent at startup the store
initializes the counter to `1`, so the first call returns `2` and the second
returns `3`. -/
theorem c1_next_persists_and_returns_increment (v : Nat) (hv : v + 1 < w64) :
    getAndIncrementNonce (nonceStore v) = .ok (v + 1, nonceStore (v + 1)) ∧
    getAndIncrementNonce ⟨none, true, true⟩ = .ok (2, nonceStore 2) ∧
    callsFrom 2 ⟨none, true, true⟩ = .ok ([2, 3], nonceStore 3) := by
  refine ⟨getAndIncrementNonce_store_lt v hv, by decide, by decide⟩

/-- C1, witness: the amended statement at `v = 3`. -/
theorem c1_witness :
    3 + 1 < w64 ∧
    (getAndIncrementNonce (nonceStore 3) = .ok (3 + 1, nonceStore (3 + 1)) ∧
     getAndIncrementNonce ⟨none, true, true⟩ = .ok (2, nonceStore 2) ∧
     callsFrom 2 ⟨none, true, true⟩ = .ok ([2, 3], nonceStore 3)) :=
  ⟨by decide, c1_next_persists_and_returns_increment 3 (by decide)⟩

set_option maxRecDepth 10000 in
/-- C2, counterexample: from a persisted counter of `2^64 - 2` two
sequential calls return `2^64 - 1` and then `0` — unsigned 64-bit wraparound
breaks the unconditional strict monotonicity the claim states. -/
theorem c2_counterexample :
    returnedList (callsFrom 2 (nonceStore (w64 - 2))) = some [w64 - 1, 0] ∧
    ¬ List.Pairwise (fun a b : Nat => a < b) [w64 - 1, 0] := by
  constructor
  · decide
  · intro hp
    exact Nat.not_lt_zero _ ((List.pairwise_cons.mp hp).1 0 (by simp))

/-- C2, amended: as long as the counter stays below `2^64` (no wraparound),
every sequence of sequential `GetAndIncrementNonce` calls — including a
restart between two segments, which re-reads the same durable storage and
is the identity on the modelled state — returns strictly increasing nonces
with no repeat and no rollback. -/
theorem c2_monotone_across_restart (v k1 k2 : Nat) (h : v + k1 + k2 < w64) :
    callsFrom k1 (nonceStore v) = .ok (nonceList v k1, nonceStore (v + k1)) ∧
    callsFrom k2 (nonceStore (v + k1)) =
      .ok (nonceList (v + k1) k2, nonceStore (v + k1 + k2)) ∧
    List.Pairwise (fun a b : Nat => a < b) (nonceList v k1 ++ nonceList (v + k1) k2) := by
  refine ⟨callsFrom_store k1 v (by omega), callsFrom_store k2 (v + k1) (by omega), ?_⟩
  rw [List.pairwise_append]
  refine ⟨nonceList_pairwise v k1, nonceList_pairwise (v + k1) k2, ?_⟩
  intro a ha b hb
  have h1 := nonceList_mem v k1 a ha
  have h2 := nonceList_mem (v + k1) k2 b hb
  omega

/-- C2, witness: the amended statement at `v = 10`, two calls before and
three calls after a restart. -/
theorem c2_witness :
    10 + 2 + 3 < w64 ∧
    (callsFrom 2 (nonceStore 10) = .ok (nonceList 10 2, nonceStore (10 + 2)) ∧
     callsFrom 3 (nonceStore (10 + 2)) =
       .ok (nonceList (10 + 2) 3, nonceStore (10 + 2 + 3)) ∧
     List.Pairwise (fun a b : Nat => a < b) (nonceList 10 2 ++ nonceList (10 + 2) 3)) :=
  ⟨by decide, c2_monotone_across_restart 10 2 3 (by decide)⟩

set_option maxRecDepth 10000 in
/-- C3: `callPrivate` embeds exactly the nonce it obtained from the store in
the encoded body (as the `nonce` parameter) and computes the signature over
exactly that encoded body; two successive calls for the same logical call
obtain two different nonces, and at a concrete credential and argument list
the two produced bodies and the two produced signatures differ. -/
theorem c3_signed_nonce_coincides (cred : ApiCredential) (method : String)
    (args : List (String × String)) (v : Nat) (hv : v + 2 < w64)
    (h1 : (args.map Prod.fst).Nodup) (h2 : "method" ∉ args.map Prod.fst)
    (h3 : "nonce" ∉ args.map Prod.fst) :
    getAndIncrementNonce (nonceStore v) = .ok (v + 1, nonceStore (v + 1)) ∧
    callPrivate cred method args (nonceStore v) =
      .ok ({ body := canonicalBody method (v + 1) args,
             contentType := "application/x-www-form-urlencoded",
             keyHeader := cred.key,
             signHeader := signHmacSha512 (strBytes cred.secret)
               (strBytes (canonicalBody method (v + 1) args)) },
           nonceStore (v + 1)) ∧
    ("nonce=" ++ formatUint (v + 1)) ∈
      (sortByName (privateParams method (v + 1) args)).map escapedComponent ∧
    getAndIncrementNonce (nonceStore (v + 1)) = .ok (v + 2, nonceStore (v + 2)) ∧
    v + 1 ≠ v + 2 ∧
    requestBody (callPrivate ⟨"apikey", "s3cret"⟩ "Trade" [("pair", "btc_usd")] (nonceStore 5)) ≠
      requestBody (callPrivate ⟨"apikey", "s3cret"⟩ "Trade" [("pair", "btc_usd")] (nonceStore 6)) ∧
    requestSign (callPrivate ⟨"apikey", "s3cret"⟩ "Trade" [("pair", "btc_usd")] (nonceStore 5)) ≠
      requestSign (callPrivate ⟨"apikey", "s3cret"⟩ "Trade" [("pair", "btc_usd")] (nonceStore 6)) := by
  refine ⟨getAndIncrementNonce_store_lt v (by omega),
          callPrivate_store cred method args v (by omega) h1 h2 h3, ?_,
          getAndIncrementNonce_store_lt (v + 1) (by omega), by omega, ?_, ?_⟩
  · have hmem0 : ("nonce", formatUint (v + 1)) ∈ privateParams method (v + 1) args := by
      simp [privateParams]
    have hmem : ("nonce", formatUint (v + 1)) ∈ sortByName (privateParams method (v + 1) args) := by
      unfold sortByName
      exact (List.perm_insertionSort byName _).mem_iff.mpr hmem0
    have hmap := List.mem_map_of_mem escapedComponent hmem
    have heq : escapedComponent ("nonce", formatUint (v + 1)) =
        "nonce=" ++ formatUint (v + 1) := by
      show queryEscape "nonce" ++ "=" ++ queryEscape (formatUint (v + 1)) =
        "nonce=" ++ formatUint (v + 1)
      rw [queryEscape_formatUint]
      rw [show queryEscape "nonce" = "nonce" from by decide]
      rw [show ("nonce" ++ "=" : String) = "nonce=" from by decide]
    rwa [heq] at hmap
  · decide
  · decide

/-- C3, witness: the statement at a concrete credential, method, argument
list and stored counter. -/
theorem c3_witness :
    0 + 2 < w64 ∧ (([("pair", "btc_usd")].map Prod.fst).Nodup ∧
      "method" ∉ [("pair", "btc_usd")].map Prod.fst ∧
      "nonce" ∉ [("pair", "btc_usd")].map Prod.fst) ∧
    (getAndIncrementNonce (nonceStore 0) = .ok (0 + 1, nonceStore (0 + 1)) ∧
     callPrivate ⟨"apikey", "s3cret"⟩ "Trade" [("pair", "btc_usd")] (nonceStore 0) =
       .ok ({ body := canonicalBody "Trade" (0 + 1) [("pair", "btc_usd")],
              contentType := "application/x-www-form-urlencoded",
              keyHeader := "apikey",
              signHeader := signHmacSha512 (strBytes "s3cret")
                (strBytes (canonicalBody "Trade" (0 + 1) [("pair", "btc_usd")])) },
            nonceStore (0 + 1)) ∧
     ("nonce=" ++ formatUint (0 + 1)) ∈
       (sortByName (privateParams "Trade" (0 + 1) [("pair", "btc_usd")])).map escapedComponent ∧
     getAndIncrementNonce (nonceStore (0 + 1)) = .ok (0 + 2, nonceStore (0 + 2)) ∧
     0 + 1 ≠ 0 + 2 ∧
     requestBody (callPrivate ⟨"apikey", "s3cret"⟩ "Trade" [("pair", "btc_usd")] (nonceStore 5)) ≠
       requestBody (callPrivate ⟨"apikey", "s3cret"⟩ "Trade" [("pair", "btc_usd")] (nonceStore 6)) ∧
     requestSign (callPrivate ⟨"apikey", "s3cret"⟩ "Trade" [("pair", "btc_usd")] (nonceStore 5)) ≠
       requestSign (callPrivate ⟨"apikey", "s3cret"⟩ "Trade" [("pair", "btc_usd")] (nonceStore 6))) :=
  ⟨by decide, ⟨by decide, by decide, by decide⟩,
   c3_signed_nonce_coincides ⟨"apikey", "s3cret"⟩ "Trade" [("pair", "btc_usd")] 0
     (by decide) (by decide) (by decide) (by decide)⟩

set_option maxRecDepth 10000 in
/-- C4: for every secret and message, the signer returns a 128-character
string of lowercase hexadecimal digits (a 512-bit digest), and on the
known-answer input — secret `"abc"`, body `"method=Trade&nonce=1"` — it
reproduces the pinned HMAC-SHA512 hex digest. -/
theorem c4_sign_output_shape (secret message : List Nat) :
    (signHmacSha512 secret message).length = 128 ∧
    (signHmacSha512 secret message).data.all isLowerHex = true ∧
    signHmacSha512 (strBytes "abc") (strBytes "method=Trade&nonce=1") =
      "ae816dd0aea9c56278e2e48ec9b4228dd05ccde4ff01ba111b10e48e55539f36a7d7c855d35f982cfc8e131c8cd99f2f1f82b1340559baa1f2630053a354c380" := by
  refine ⟨signHmacSha512_length secret message, signHmacSha512_lowerHex secret message, ?_⟩
  decide

/-- C5: `GetAndIncrementNonce` holds a mutex for the whole
read-increment-write sequence, so N concurrent calls execute as N sequential
calls; below the wraparound bound the N returned nonces are pairwise
distinct, strictly increasing in call order (hence strictly increasing when
sorted), and consecutive — no value is skipped. -/
theorem c5_serialized_calls_distinct (v N i : Nat) (_hN : 1 ≤ N) (h : v + N < w64) :
    callsFrom N (nonceStore v) = .ok (nonceList v N, nonceStore (v + N)) ∧
    (nonceList v N).Nodup ∧
    List.Pairwise (fun a b : Nat => a < b) (nonceList v N) ∧
    (i + 1 < N → (nonceList v N).getD (i + 1) 0 = (nonceList v N).getD i 0 + 1) := by
  refine ⟨callsFrom_store N v h, nonceList_nodup v N, nonceList_pairwise v N, ?_⟩
  intro hi
  rw [nonceList_getD v N (i + 1) hi, nonceList_getD v N i (by omega)]
  omega

/-- C5, witness: the statement at `v = 0`, `N = 3`, `i = 0`. -/
theorem c5_witness :
    1 ≤ 3 ∧ 0 + 3 < w64 ∧
    (callsFrom 3 (nonceStore 0) = .ok (nonceList 0 3, nonceStore (0 + 3)) ∧
     (nonceList 0 3).Nodup ∧
     List.Pairwise (fun a b : Nat => a < b) (nonceList 0 3) ∧
     (0 + 1 < 3 → (nonceList 0 3).getD (0 + 1) 0 = (nonceList 0 3).getD 0 0 + 1)) :=
  ⟨by decide, by decide, c5_serialized_calls_distinct 0 3 0 (by decide) (by decide)⟩

set_option maxRecDepth 10000 in
/-- C6: the signer is a pure deterministic function of the secret and the
message — equal inputs give equal digests — and changing one byte of the
body (`nonce=1` to `nonce=2`) or one byte of the secret (`abc` to `abd`)
changes the digest. -/
theorem c6_sign_deterministic (s1 s2 b1 b2 : List Nat) (hs : s1 = s2) (hb : b1 = b2) :
    signHmacSha512 s1 b1 = signHmacSha512 s2 b2 ∧
    signHmacSha512 (strBytes "abc") (strBytes "method=Trade&nonce=1") ≠
      signHmacSha512 (strBytes "abc") (strBytes "method=Trade&nonce=2") ∧
    signHmacSha512 (strBytes "abc") (strBytes "method=Trade&nonce=1") ≠
      signHmacSha512 (strBytes "abd") (strBytes "method=Trade&nonce=1") := by
  subst hs
  subst hb
  refine ⟨rfl, ?_, ?_⟩
  · decide
  · decide

/-- C6, witness: the statement with both equalities discharged by
reflexivity at the known-answer inputs. -/
theorem c6_witness :
    strBytes "abc" = strBytes "abc" ∧
    (signHmacSha512 (strBytes "abc") (strBytes "method=Trade&nonce=1") =
       signHmacSha512 (strBytes "abc") (strBytes "method=Trade&nonce=1") ∧
     signHmacSha512 (strBytes "abc") (strBytes "method=Trade&nonce=1") ≠
       signHmacSha512 (strBytes "abc") (strBytes "method=Trade&nonce=2") ∧
     signHmacSha512 (strBytes "abc") (strBytes "method=Trade&nonce=1") ≠
       signHmacSha512 (strBytes "abd") (strBytes "method=Trade&nonce=1")) :=
  ⟨rfl, c6_sign_deterministic (strBytes "abc") (strBytes "abc")
    (strBytes "method=Trade&nonce=1") (strBytes "method=Trade&nonce=1") rfl rfl⟩

/-- C7: `callPrivate` builds the body as the `method` parameter, the `nonce`
parameter and all supplied parameters, query-escaped and joined in the
canonical order (sorted by parameter name — the sorted parameter list is a
permutation of the full parameter list and its names are sorted), computes
the signature over exactly that encoded body, and attaches the body, the
signature header and the credential's public key identifier header. -/
theorem c7_canonical_body (cred : ApiCredential) (method : String)
    (args : List (String × String)) (v : Nat) (hv : v + 1 < w64)
    (h1 : (args.map Prod.fst).Nodup) (h2 : "method" ∉ args.map Prod.fst)
    (h3 : "nonce" ∉ args.map Prod.fst) :
    callPrivate cred method args (nonceStore v) =
      .ok ({ body := canonicalBody method (v + 1) args,
             contentType := "application/x-www-form-urlencoded",
             keyHeader := cred.key,
             signHeader := signHmacSha512 (strBytes cred.secret)
               (strBytes (canonicalBody method (v + 1) args)) },
           nonceStore (v + 1)) ∧
    (sortByName (privateParams method (v + 1) args)).Perm
      (privateParams method (v + 1) args) ∧
    List.Pairwise strLe ((sortByName (privateParams method (v + 1) args)).map Prod.fst) := by
  refine ⟨callPrivate_store cred method args v hv h1 h2 h3,
          List.perm_insertionSort byName _, ?_⟩
  show List.Pairwise strLe ((List.insertionSort byName _).map Prod.fst)
  rw [map_fst_insertionSort]
  exact List.sorted_insertionSort strLe _

/-- C7, witness: the statement at a concrete credential, method, argument
list and stored counter. -/
theorem c7_witness :
    5 + 1 < w64 ∧ (([("pair", "btc_usd")].map Prod.fst).Nodup ∧
      "method" ∉ [("pair", "btc_usd")].map Prod.fst ∧
      "nonce" ∉ [("pair", "btc_usd")].map Prod.fst) ∧
    (callPrivate ⟨"apikey", "s3cret"⟩ "Trade" [("pair", "btc_usd")] (nonceStore 5) =
       .ok ({ body := canonicalBody "Trade" (5 + 1) [("pair", "btc_usd")],
              contentType := "application/x-www-form-urlencoded",
              keyHeader := "apikey",
              signHeader := signHmacSha512 (strBytes "s3cret")
                (strBytes (canonicalBody "Trade" (5 + 1) [("pair", "btc_usd")])) },
            nonceStore (5 + 1)) ∧
     (sortByName (privateParams "Trade" (5 + 1) [("pair", "btc_usd")])).Perm
       (privateParams "Trade" (5 + 1) [("pair", "btc_usd")]) ∧
     List.Pairwise strLe
       ((sortByName (privateParams "Trade" (5 + 1) [("pair", "btc_usd")])).map Prod.fst)) :=
  ⟨by decide, ⟨by decide, by decide, by decide⟩,
   c7_canonical_body ⟨"apikey", "s3cret"⟩ "Trade" [("pair", "btc_usd")] 5
     (by decide) (by decide) (by decide) (by decide)⟩

/-- C8: when the primary schema decode fails and the fallback
`{success, error}` decode succeeds, `unmarshal` surfaces exactly the
server-supplied error string; on the body
`{"success":0,"error":"invalid nonce"}` the fallback decode yields
`success = 0` with message `"invalid nonce"`, so `unmarshal` yields the
error `"invalid nonce"` rather than a raw parse failure. -/
theorem c8_unmarshal_fallback {α : Type} (primaryDecode : String → Except String α)
    (data e : String) (er : ErrorResponse)
    (hp : primaryDecode data = .error e)
    (hd : decodeErrorResponse data = some er) :
    unmarshal primaryDecode data = .error er.error ∧
    decodeErrorResponse "\x7b\"success\":0,\"error\":\"invalid nonce\"\x7d" =
      some ⟨0, "invalid nonce"⟩ ∧
    unmarshal (fun _ => (Except.error "syntax" : Except String Unit))
      "\x7b\"success\":0,\"error\":\"invalid nonce\"\x7d" = .error "invalid nonce" := by
  refine ⟨?_, by decide, by decide⟩
  unfold unmarshal
  rw [hp, hd]

/-- C8, witness: the statement at the scenario body with a failing primary
decoder. -/
theorem c8_witness :
    (fun _ => (Except.error "syntax" : Except String Unit))
        "\x7b\"success\":0,\"error\":\"invalid nonce\"\x7d" = .error "syntax" ∧
    decodeErrorResponse "\x7b\"success\":0,\"error\":\"invalid nonce\"\x7d" =
      some ⟨0, "invalid nonce"⟩ ∧
    (unmarshal (fun _ => (Except.error "syntax" : Except String Unit))
        "\x7b\"success\":0,\"error\":\"invalid nonce\"\x7d" =
      .error (ErrorResponse.mk 0 "invalid nonce").error ∧
     decodeErrorResponse "\x7b\"success\":0,\"error\":\"invalid nonce\"\x7d" =
       some ⟨0, "invalid nonce"⟩ ∧
     unmarshal (fun _ => (Except.error "syntax" : Except String Unit))
       "\x7b\"success\":0,\"error\":\"invalid nonce\"\x7d" = .error "invalid nonce") :=
  ⟨rfl, by decide,
   c8_unmarshal_fallback (fun _ => (Except.error "syntax" : Except String Unit))
     "\x7b\"success\":0,\"error\":\"invalid nonce\"\x7d" "syntax"
     ⟨0, "invalid nonce"⟩ rfl (by decide)⟩

/-- C9: for present storage, the read operation panics exactly when the
storage is unreadable or its contents are not a valid decimal unsigned
64-bit integer; the write operation panics exactly when the storage is
unwritable; a read panic aborts the whole `GetAndIncrementNonce` call with
the same error and no recovery; and on success the persisted contents are
the decimal representation of an unsigned 64-bit integer that parses back
to the returned value. -/
theorem c9_error_conditions (fs : NonceStorage) (s d : String) (e : NonceFailure)
    (v : Nat) (fs1 : NonceStorage) (hc : fs.contents = some s) :
    (isFailure (readNonce fs) = true ↔ (fs.readable = false ∨ parseUint64 s = none)) ∧
    (isFailure (writeNonce fs d) = true ↔ fs.writable = false) ∧
    (readNonce fs = .error e → getAndIncrementNonce fs = .error e) ∧
    (getAndIncrementNonce fs = .ok (v, fs1) →
      v < w64 ∧ fs1.contents = some (formatUint v) ∧
      parseUint64 (formatUint v) = some v) := by
  obtain ⟨contents, r, w⟩ := fs
  simp only [NonceStorage.contents] at hc
  subst hc
  refine ⟨?_, ?_, ?_, ?_⟩
  · cases r
    · simp [readNonce, createNonceFileIfNotExists, isFailure]
    · rcases hps : parseUint64 s with _ | n
      · simp [readNonce, createNonceFileIfNotExists, isFailure, hps]
      · simp [readNonce, createNonceFileIfNotExists, isFailure, hps]
  · cases w
    · simp [writeNonce, isFailure]
    · simp [writeNonce, isFailure]
  · intro h
    unfold getAndIncrementNonce
    rw [h]
  · intro h
    unfold getAndIncrementNonce at h
    cases hr : readNonce ⟨some s, r, w⟩ with
    | error e1 => rw [hr] at h; exact absurd h (by simp)
    | ok p =>
      obtain ⟨n, fs2⟩ := p
      rw [hr] at h
      have h1 : incrementNonce n fs2 = .ok (v, fs1) := h
      unfold incrementNonce at h1
      cases hw : writeNonce fs2 (formatUint ((n + 1) % w64)) with
      | error e2 =>
        rw [hw] at h1
        have h2 : (Except.error e2 : Except NonceFailure (Nat × NonceStorage)) =
            .ok (v, fs1) := h1
        exact absurd h2 (by simp)
      | ok fs3 =>
        rw [hw] at h1
        have h2 : (Except.ok ((n + 1) % w64, fs3) :
            Except NonceFailure (Nat × NonceStorage)) = .ok (v, fs1) := h1
        have hveq : (n + 1) % w64 = v := congrArg Prod.fst (Except.ok.inj h2)
        have hfseq : fs3 = fs1 := congrArg Prod.snd (Except.ok.inj h2)
        have hvlt : v < w64 := by
          rw [← hveq]
          exact Nat.mod_lt _ (by decide)
        refine ⟨hvlt, ?_, parseUint64_formatUint v hvlt⟩
        unfold writeNonce at hw
        by_cases hwb : fs2.writable
        · rw [if_pos hwb] at hw
          have h3 := Except.ok.inj hw
          rw [← hfseq, ← h3, hveq]
        · rw [if_neg hwb] at hw
          exact absurd hw (by simp)

/-- C9, witness: the statement at a healthy concrete store. -/
theorem c9_witness :
    (⟨some "41", true, true⟩ : NonceStorage).contents = some "41" ∧
    ((isFailure (readNonce ⟨some "41", true, true⟩) = true ↔
       ((⟨some "41", true, true⟩ : NonceStorage).readable = false ∨
        parseUint64 "41" = none)) ∧
     (isFailure (writeNonce ⟨some "41", true, true⟩ "9") = true ↔
       (⟨some "41", true, true⟩ : NonceStorage).writable = false) ∧
     (readNonce ⟨some "41", true, true⟩ = .error .corrupt →
       getAndIncrementNonce ⟨some "41", true, true⟩ = .error .corrupt) ∧
     (getAndIncrementNonce ⟨some "41", true, true⟩ = .ok (42, nonceStore 42) →
       42 < w64 ∧ (nonceStore 42).contents = some (formatUint 42) ∧
       parseUint64 (formatUint 42) = some 42)) :=
  ⟨rfl, c9_error_conditions ⟨some "41", true, true⟩ "41" "9" .corrupt 42
    (nonceStore 42) rfl⟩

set_option maxRecDepth 10000 in
/-- C10: nonce arithmetic is unsigned 64-bit modular — from a persisted
counter of `2^64 - 1` the next call wraps, returning `0` and persisting
`"0"`, so at that single boundary strict monotonicity fails (`2^64 - 1`
followed by `0` is not increasing); below the bound the increment is exact
addition by one. -/
theorem c10_uint64_wraparound (v : Nat) (hv : v + 1 < w64) :
    getAndIncrementNonce (nonceStore (w64 - 1)) = .ok (0, nonceStore 0) ∧
    nonceStore 0 = ⟨some "0", true, true⟩ ∧
    returnedList (callsFrom 2 (nonceStore (w64 - 2))) = some [w64 - 1, 0] ∧
    ¬ (w64 - 1 < 0) ∧
    getAndIncrementNonce (nonceStore v) = .ok (v + 1, nonceStore (v + 1)) := by
  refine ⟨?_, by decide, by decide, by simp, getAndIncrementNonce_store_lt v hv⟩
  have h1 : w64 - 1 < w64 := by decide
  rw [getAndIncrementNonce_store _ h1]
  rw [show (w64 - 1 + 1) % w64 = 0 from by decide]

/-- C10, witness: the statement at `v = 7`. -/
theorem c10_witness :
    7 + 1 < w64 ∧
    (getAndIncrementNonce (nonceStore (w64 - 1)) = .ok (0, nonceStore 0) ∧
     nonceStore 0 = ⟨some "0", true, true⟩ ∧
     returnedList (callsFrom 2 (nonceStore (w64 - 2))) = some [w64 - 1, 0] ∧
     ¬ (w64 - 1 < 0) ∧
     getAndIncrementNonce (nonceStore 7) = .ok (7 + 1, nonceStore (7 + 1))) :=
  ⟨by decide, c10_uint64_wraparound 7 (by decide)⟩

end Yobit
